import Mathlib

/-!
Verification development for the Askr inventory generator
(`scripts/generate-inventory.py`).

The script extracts symbol names, benchmark labels and test behaviors from
file contents using Python `re` pattern matching, and renders a markdown
report.  We embed the relevant regular expressions as a small backtracking
matcher with Python's leftmost / greedy / ordered-alternation semantics
(each quantified subexpression in the source patterns is a character class,
so greedy quantifiers over character classes suffice), embed the extraction
functions and the report renderer over it, and prove the spec claims.

Conventions of the embedding:
* file contents are `String`s, processed as `List Char`;
* Python `\w` is modelled as ASCII alphanumeric or underscore, `\s` as the
  six ASCII whitespace characters (all inputs considered here are ASCII);
* Python `set(...)` (unordered, iteration order unspecified) is modelled as
  `List.dedup`; claims only depend on membership, `Nodup` and cardinality,
  never on the iteration order of a set;
* Python dicts are association lists `List (String × record)`; the scanner
  guarantees distinct keys, which renderer claims take as a hypothesis.
-/

/-- ASCII model of Python regex `\w`: alphanumeric or underscore. -/
def isWordChar (c : Char) : Bool := c.isAlphanum || c == '_'

/-- ASCII model of Python regex `\s`: space, tab, newline, CR, VT, FF. -/
def isSpaceChar (c : Char) : Bool :=
  c == ' ' || c == '\t' || c == '\n' || c == '\r' || c == '\x0b' || c == '\x0c'

/-- Model of the regex character class matching a single or double quote. -/
def isQuoteChar (c : Char) : Bool := c == '"' || c.toNat == 39

/-- Regular expressions, shaped after the patterns in
`extract_typescript_symbols`, `extract_benchmark_names` and
`extract_test_behaviors`: literals, single character classes, concatenation,
ordered alternation, greedy option, greedy star/plus of a character class,
and a single capturing group which is always a greedy plus of a character
class (`(\w+)` or the quoted-argument class). -/
inductive RE where
  | eps : RE
  | str : List Char → RE
  | cls : (Char → Bool) → RE
  | cat : RE → RE → RE
  | alt : RE → RE → RE
  | opt : RE → RE
  | star : (Char → Bool) → RE
  | plus : (Char → Bool) → RE
  | grp : (Char → Bool) → RE

/-- Result of a match attempt: the captured group (if any) and the
remaining input after the match. -/
abbrev MRes := Option (Option (List Char) × List Char)

/-- Boolean prefix test on character lists (literal matching). -/
def prefixCheck : List Char → List Char → Bool
  | [], _ => true
  | _ :: _, [] => false
  | a :: as, b :: bs => (a == b) && prefixCheck as bs

/-- Greedy backtracking over the length of a character-class run: try to
consume `n` characters, then `n - 1`, ..., down to `1`. -/
def tryTake (cs : List Char) (k : List Char → List Char → MRes) : Nat → MRes
  | 0 => none
  | n + 1 =>
    match k (cs.take (n + 1)) (cs.drop (n + 1)) with
    | some r => some r
    | none => tryTake cs k n

/-- CPS backtracking matcher, anchored at the start of `cs`.  The
continuation receives the capture accumulated so far and the rest of the
input.  Alternatives are tried left first and quantifiers longest first,
matching Python `re` backtracking order. -/
def mRE : RE → List Char → Option (List Char) →
    (Option (List Char) → List Char → MRes) → MRes
  | .eps, cs, cap, k => k cap cs
  | .str s, cs, cap, k => if prefixCheck s cs then k cap (cs.drop s.length) else none
  | .cls _, [], _, _ => none
  | .cls p, c :: cs, cap, k => if p c then k cap cs else none
  | .cat a b, cs, cap, k => mRE a cs cap (fun cap2 rest => mRE b rest cap2 k)
  | .alt a b, cs, cap, k =>
    match mRE a cs cap k with
    | some r => some r
    | none => mRE b cs cap k
  | .opt a, cs, cap, k =>
    match mRE a cs cap k with
    | some r => some r
    | none => k cap cs
  | .star p, cs, cap, k =>
    match tryTake cs (fun _ rest => k cap rest) (cs.takeWhile p).length with
    | some r => some r
    | none => k cap cs
  | .plus p, cs, cap, k => tryTake cs (fun _ rest => k cap rest) (cs.takeWhile p).length
  | .grp p, cs, cap, k => tryTake cs (fun g rest => k (some g) rest) (cs.takeWhile p).length

/-- Try to match `re` at the start of `cs`. -/
def matchAt (re : RE) (cs : List Char) : MRes :=
  mRE re cs none (fun cap rest => some (cap, rest))

/-- String of a capture (`findall` returns the group when the pattern has
exactly one group; all embedded patterns with captures have exactly one). -/
def capStr (cap : Option (List Char)) : String := (cap.getD []).asString

/-- Scan of `re.findall`: try to match at each position, resume after each
(non-overlapping) match, advance one character after a failure or an empty
match.  Fueled for termination; the initial fuel `length + 1` is enough
because each step either consumes input or shortens the list by one. -/
def findallGo (re : RE) : Nat → List Char → List String
  | 0, _ => []
  | fuel + 1, cs =>
    match matchAt re cs with
    | some (cap, rest) =>
      if rest.length < cs.length then capStr cap :: findallGo re fuel rest
      else
        match cs with
        | [] => [capStr cap]
        | _ :: t => capStr cap :: findallGo re fuel t
    | none =>
      match cs with
      | [] => []
      | _ :: t => findallGo re fuel t

/-- Model of `re.findall(pattern, content)` returning the captures of the
single group, in scan order. -/
def re_findall (re : RE) (s : String) : List String :=
  findallGo re (s.toList.length + 1) s.toList

/-- Scan of `re.search`: does the pattern match at some position? -/
def searchGo (re : RE) : Nat → List Char → Bool
  | 0, _ => false
  | fuel + 1, cs =>
    match matchAt re cs with
    | some _ => true
    | none =>
      match cs with
      | [] => false
      | _ :: t => searchGo re fuel t

/-- Model of `bool(re.search(pattern, content))`. -/
def re_search (re : RE) (s : String) : Bool :=
  searchGo re (s.toList.length + 1) s.toList

/-- Concatenation of a pattern list. -/
def REcat (l : List RE) : RE := l.foldr RE.cat RE.eps

/-- Literal pattern from a string. -/
def rstr (s : String) : RE := RE.str s.toList

/-- Pattern `(?:export\s+)?(?:async\s+)?function\s+(\w+)\s*\(`. -/
def funcRE : RE :=
  REcat [.opt (REcat [rstr "export", .plus isSpaceChar]),
         .opt (REcat [rstr "async", .plus isSpaceChar]),
         rstr "function", .plus isSpaceChar, .grp isWordChar,
         .star isSpaceChar, rstr "("]

/-- Pattern `(?:export\s+)?class\s+(\w+)`. -/
def classRE : RE :=
  REcat [.opt (REcat [rstr "export", .plus isSpaceChar]),
         rstr "class", .plus isSpaceChar, .grp isWordChar]

/-- Pattern `(?:export\s+)?interface\s+(\w+)`. -/
def interfaceRE : RE :=
  REcat [.opt (REcat [rstr "export", .plus isSpaceChar]),
         rstr "interface", .plus isSpaceChar, .grp isWordChar]

/-- Pattern `(?:export\s+)?type\s+(\w+)\s*=`. -/
def typeRE : RE :=
  REcat [.opt (REcat [rstr "export", .plus isSpaceChar]),
         rstr "type", .plus isSpaceChar, .grp isWordChar,
         .star isSpaceChar, rstr "="]

/-- Pattern `(?:export\s+)?const\s+(\w+)\s*[:=]`. -/
def constRE : RE :=
  REcat [.opt (REcat [rstr "export", .plus isSpaceChar]),
         rstr "const", .plus isSpaceChar, .grp isWordChar,
         .star isSpaceChar, .cls (fun c => c == ':' || c == '=')]

/-- Pattern `const\s+NAME\s*=\s*\(` — the per-name exclusion probe
(`re.escape` is the identity on `\w+` names). -/
def constFilterRE (name : String) : RE :=
  REcat [rstr "const", .plus isSpaceChar, RE.str name.toList,
         .star isSpaceChar, rstr "=", .star isSpaceChar, rstr "("]

/-- Pattern `export\s+(?:const|function|class|interface|type)\s+(\w+)`. -/
def exportRE : RE :=
  REcat [rstr "export", .plus isSpaceChar,
         .alt (rstr "const") (.alt (rstr "function")
           (.alt (rstr "class") (.alt (rstr "interface") (rstr "type")))),
         .plus isSpaceChar, .grp isWordChar]

/-- Pattern `bench\(\s*['"]([^'"]+)['"]`. -/
def benchRE : RE :=
  REcat [rstr "bench(", .star isSpaceChar, .cls isQuoteChar,
         .grp (fun c => !isQuoteChar c), .cls isQuoteChar]

/-- Pattern `describe\(\s*['"]([^'"]+)['"]`. -/
def describeRE : RE :=
  REcat [rstr "describe(", .star isSpaceChar, .cls isQuoteChar,
         .grp (fun c => !isQuoteChar c), .cls isQuoteChar]

/-- Pattern `(?:it|test)\(\s*['"]([^'"]+)['"]`. -/
def testRE : RE :=
  REcat [.alt (rstr "it") (rstr "test"), rstr "(", .star isSpaceChar,
         .cls isQuoteChar, .grp (fun c => !isQuoteChar c), .cls isQuoteChar]

/-- The classification result:
six categories of symbol names, as in `extract_typescript_symbols`. -/
structure SymbolSet where
  functions : List String
  classes : List String
  interfaces : List String
  types : List String
  constants : List String
  exports : List String
deriving DecidableEq, Inhabited

/-- The `keywords_to_filter` set from the script. -/
def keywordsToFilter : List String :=
  ["if", "for", "while", "do", "switch", "case", "default", "try", "catch",
   "finally", "throw", "return", "break", "continue", "new", "this", "super",
   "extends", "implements", "import", "export", "from", "as", "typeof",
   "instanceof", "in", "of", "let", "var", "const"]

/-- Post-processing applied to every category:
`[s for s in set(matches) if s not in keywords_to_filter and len(s) > 1]`. -/
def postFilter (l : List String) : List String :=
  l.dedup.filter (fun s => !keywordsToFilter.contains s && decide (1 < s.length))

/-- Model of `extract_typescript_symbols` from the script. -/
def extract_typescript_symbols (content : String) : SymbolSet :=
  let constMatches := re_findall constRE content
  let constantsRaw :=
    constMatches.filter (fun m => !re_search (constFilterRE m) content)
  { functions := postFilter (re_findall funcRE content)
    classes := postFilter (re_findall classRE content)
    interfaces := postFilter (re_findall interfaceRE content)
    types := postFilter (re_findall typeRE content)
    constants := postFilter constantsRaw
    exports := postFilter (re_findall exportRE content) }

/-- Model of `extract_benchmark_names` from the script:
`list(set(bench_matches + describe_matches))`. -/
def extract_benchmark_names (content : String) : List String :=
  (re_findall benchRE content ++ re_findall describeRE content).dedup

/-- Model of `extract_test_behaviors` from the script: captures in file order,
duplicates retained. -/
def extract_test_behaviors (content : String) : List String :=
  re_findall testRE content

/-- Per-file record for a source file (`{'symbols': ..., 'line_count': ..., 'size': ...}`). -/
structure SrcRecord where
  symbols : SymbolSet
  line_count : Nat
  size : Nat
deriving DecidableEq, Inhabited

/-- Per-file record for a benchmark file. -/
structure BenchRecord where
  benchmarks : List String
  line_count : Nat
  size : Nat
deriving DecidableEq, Inhabited

/-- Per-file record for a test file. -/
structure TestRecord where
  behaviors : List String
  line_count : Nat
  size : Nat
deriving DecidableEq, Inhabited

/-- A scanned inventory: Python dict from relative path to record, as an
association list (scanner guarantees distinct keys). -/
abbrev SrcInventory := List (String × SrcRecord)

abbrev BenchInventory := List (String × BenchRecord)

abbrev TestInventory := List (String × TestRecord)

/-- Python `sorted` on strings (lexicographic by code points). -/
def sortStrings (l : List String) : List String :=
  List.insertionSort (fun a b => a ≤ b) l

/-- The summary total:
`sum(len(functions) + len(classes) + len(interfaces) for ...)`. -/
def totalSrcSymbols (inv : SrcInventory) : Nat :=
  (inv.map (fun e =>
    e.2.symbols.functions.length + e.2.symbols.classes.length +
      e.2.symbols.interfaces.length)).sum

/-- Model of `sum(len(file_data['benchmarks']) ...)`. -/
def totalBenchmarks (inv : BenchInventory) : Nat :=
  (inv.map (fun e => e.2.benchmarks.length)).sum

/-- Model of `sum(len(file_data['behaviors']) ...)`. -/
def totalBehaviors (inv : TestInventory) : Nat :=
  (inv.map (fun e => e.2.behaviors.length)).sum

/-- The `symbol_counts` list built for one file: non-empty category counts,
in the fixed order classes, interfaces, functions, types, constants. -/
def symbolCounts (sym : SymbolSet) : List String :=
  (if sym.classes.isEmpty then [] else [toString sym.classes.length ++ " classes"])
    ++ (if sym.interfaces.isEmpty then [] else
      [toString sym.interfaces.length ++ " interfaces"])
    ++ (if sym.functions.isEmpty then [] else
      [toString sym.functions.length ++ " functions"])
    ++ (if sym.types.isEmpty then [] else [toString sym.types.length ++ " types"])
    ++ (if sym.constants.isEmpty then [] else
      [toString sym.constants.length ++ " constants"])

/-- Model of `", ".join(symbol_counts) if symbol_counts else "No symbols"`. -/
def symbolSummary (sym : SymbolSet) : String :=
  if (symbolCounts sym).isEmpty then "No symbols"
  else String.intercalate ", " (symbolCounts sym)

/-- One line of the source-file listing. -/
def srcLine (inv : SrcInventory) (p : String) : String :=
  "- `" ++ p ++ "` - " ++ symbolSummary ((List.lookup p inv).getD default).symbols

/-- The source-file listing: paths sorted, one line per file. -/
def srcSection (inv : SrcInventory) : List String :=
  (sortStrings (inv.map Prod.fst)).map (fun p => srcLine inv p)

/-- The lines for one benchmark file: header line, sorted labels indented,
then a blank line. -/
def benchEntry (inv : BenchInventory) (p : String) : List String :=
  let d := (List.lookup p inv).getD default
  ("- `" ++ p ++ "` - " ++ toString d.benchmarks.length ++ " benchmarks")
    :: ((if d.benchmarks.isEmpty then []
         else (sortStrings d.benchmarks).map (fun x => "  - " ++ x)) ++ [""])

/-- The benchmark-file listing. -/
def benchSection (inv : BenchInventory) : List String :=
  ((sortStrings (inv.map Prod.fst)).map (fun p => benchEntry inv p)).flatten

/-- The lines for one test file: header line, sorted behaviors indented,
then a blank line. -/
def testEntry (inv : TestInventory) (p : String) : List String :=
  let d := (List.lookup p inv).getD default
  ("- `" ++ p ++ "` - " ++ toString d.behaviors.length ++ " test behaviors")
    :: ((if d.behaviors.isEmpty then []
         else (sortStrings d.behaviors).map (fun x => "  - " ++ x)) ++ [""])

/-- The test-file listing. -/
def testSection (inv : TestInventory) : List String :=
  ((sortStrings (inv.map Prod.fst)).map (fun p => testEntry inv p)).flatten

/-- The full list of report lines built by `generate_markdown_inventory`. -/
def buildLines (s : SrcInventory) (b : BenchInventory) (t : TestInventory) :
    List String :=
  ["# Askr Framework Inventory", "", "Generated on: 2025-12-17", "",
   "## Summary", "",
   "- **Source files**: " ++ toString s.length,
   "- **Benchmark files**: " ++ toString b.length,
   "- **Test files**: " ++ toString t.length,
   "- **Total symbols in src/**: " ++ toString (totalSrcSymbols s),
   "- **Total benchmarks**: " ++ toString (totalBenchmarks b),
   "- **Total test behaviors**: " ++ toString (totalBehaviors t),
   "",
   "## Source Files (`src/`)", ""]
    ++ srcSection s ++ [""]
    ++ ["## Benchmark Files (`benches/`)", ""] ++ benchSection b
    ++ ["## Test Files (`tests/`)", ""] ++ testSection t

/-- Model of `generate_markdown_inventory` from the script: `"\n".join(lines)`. -/
def generate_markdown_inventory (s : SrcInventory) (b : BenchInventory)
    (t : TestInventory) : String :=
  String.intercalate "\n" (buildLines s b t)

/-- Membership in a post-processed category. -/
lemma mem_postFilter {l : List String} {s : String} :
    s ∈ postFilter l ↔ s ∈ l ∧ s ∉ keywordsToFilter ∧ 1 < s.length := by
  simp [postFilter, List.mem_filter, List.mem_dedup, and_assoc]

/-- Every post-processed category is duplicate-free and contains neither
reserved keywords nor names of length ≤ 1. -/
lemma postFilter_good (l : List String) :
    (postFilter l).Nodup ∧
      ∀ s ∈ postFilter l, s ∉ keywordsToFilter ∧ 1 < s.length :=
  ⟨(List.nodup_dedup l).filter _, fun _ hs => (mem_postFilter.mp hs).2⟩

/-- Claim C1: for every input string `C`, every category of the
`SymbolSet` returned by `extract_typescript_symbols C` (functions, classes,
interfaces, types, constants, exports) is duplicate-free, contains no
reserved keyword, and contains no name of length ≤ 1. -/
theorem c1_classify_invariants (C : String) :
    ((extract_typescript_symbols C).functions.Nodup ∧
      (extract_typescript_symbols C).classes.Nodup ∧
      (extract_typescript_symbols C).interfaces.Nodup ∧
      (extract_typescript_symbols C).types.Nodup ∧
      (extract_typescript_symbols C).constants.Nodup ∧
      (extract_typescript_symbols C).exports.Nodup) ∧
    ∀ s : String,
      (s ∈ (extract_typescript_symbols C).functions ∨
        s ∈ (extract_typescript_symbols C).classes ∨
        s ∈ (extract_typescript_symbols C).interfaces ∨
        s ∈ (extract_typescript_symbols C).types ∨
        s ∈ (extract_typescript_symbols C).constants ∨
        s ∈ (extract_typescript_symbols C).exports) →
      s ∉ keywordsToFilter ∧ 1 < s.length := by
  refine ⟨⟨(postFilter_good _).1, (postFilter_good _).1, (postFilter_good _).1,
    (postFilter_good _).1, (postFilter_good _).1, (postFilter_good _).1⟩, ?_⟩
  rintro s (h | h | h | h | h | h) <;> exact (postFilter_good _).2 s h

/-- Claim C4: a const-pattern match is excluded from the constants category
whenever the content matches `const\s+name\s*=\s*\(` anywhere. -/
theorem c4_const_function_binding_excluded (content name : String)
    (h : re_search (constFilterRE name) content = true) :
    name ∉ (extract_typescript_symbols content).constants := by
  intro hmem
  have hmem2 : name ∈ postFilter ((re_findall constRE content).filter
      (fun m => !re_search (constFilterRE m) content)) := hmem
  have h2 := List.mem_filter.mp (mem_postFilter.mp hmem2).1
  rw [h] at h2
  simp at h2

/-- Witness for C4 at the concrete input `const foo = (x) => x`. -/
theorem c4_witness :
    re_search (constFilterRE "foo") "const foo = (x) => x" = true ∧
      "foo" ∉ (extract_typescript_symbols "const foo = (x) => x").constants :=
  ⟨by decide, c4_const_function_binding_excluded _ _ (by decide)⟩

/-- Claim C8: `extract_benchmark_names` returns the de-duplicated union of
the `bench(...)` captures and the `describe(...)` captures; in particular
two identical `bench("y", ...)` calls yield the one-element set. -/
theorem c8_benchmarks_dedup :
    (∀ content : String,
      (extract_benchmark_names content).Nodup ∧
      ∀ s : String, s ∈ extract_benchmark_names content ↔
        (s ∈ re_findall benchRE content ∨ s ∈ re_findall describeRE content)) ∧
    extract_benchmark_names "bench(\"y\", a); bench(\"y\", b);" = ["y"] := by
  refine ⟨fun content => ⟨List.nodup_dedup _, fun s => ?_⟩, by decide⟩
  simp [extract_benchmark_names, List.mem_dedup, List.mem_append]

/-- Agreement of `prefixCheck` with the prefix relation. -/
lemma prefixCheck_iff {s cs : List Char} : prefixCheck s cs = true ↔ s <+: cs := by
  induction s generalizing cs with
  | nil => simp [prefixCheck]
  | cons a as ih =>
    cases cs with
    | nil => simp [prefixCheck]
    | cons b bs => simp [prefixCheck, ih, List.cons_prefix_cons]

/-- Inversion for `tryTake`: a success consumes between `1` and `n`
characters and comes from the continuation on the split at that point. -/
lemma tryTake_some {cs : List Char} {k : List Char → List Char → MRes} {r} :
    ∀ {n : Nat}, tryTake cs k n = some r →
      ∃ m, 1 ≤ m ∧ m ≤ n ∧ k (cs.take m) (cs.drop m) = some r := by
  intro n
  induction n with
  | zero => intro h; simp [tryTake] at h
  | succ n ih =>
    intro h
    rw [tryTake] at h
    split at h
    · next heq =>
        injection h with h2
        exact ⟨n + 1, Nat.succ_le_succ (Nat.zero_le n), Nat.le_refl _, by rw [heq, h2]⟩
    · obtain ⟨m, h1, h2, h3⟩ := ih h
      exact ⟨m, h1, Nat.le_succ_of_le h2, h3⟩

/-- Every success of the CPS matcher factors through a continuation call on
a suffix of the input. -/
lemma mRE_some {re : RE} :
    ∀ {cs : List Char} {cap : Option (List Char)}
      {k : Option (List Char) → List Char → MRes} {r : Option (List Char) × List Char},
      mRE re cs cap k = some r →
        ∃ cap2 rest2, rest2 <:+ cs ∧ k cap2 rest2 = some r := by
  induction re with
  | eps => exact fun h => ⟨_, _, List.suffix_rfl, h⟩
  | str s =>
    intro cs cap k r h
    rw [mRE] at h
    split at h
    · exact ⟨cap, cs.drop s.length, List.drop_suffix _ _, h⟩
    · exact absurd h (by simp)
  | cls p =>
    intro cs cap k r h
    match cs with
    | [] => simp [mRE] at h
    | c :: t =>
      rw [mRE] at h
      split at h
      · exact ⟨cap, t, List.suffix_cons c t, h⟩
      · exact absurd h (by simp)
  | cat a b iha ihb =>
    intro cs cap k r h
    rw [mRE] at h
    obtain ⟨cap2, rest2, hs2, h2⟩ := iha h
    obtain ⟨cap3, rest3, hs3, h3⟩ := ihb h2
    exact ⟨cap3, rest3, hs3.trans hs2, h3⟩
  | alt a b iha ihb =>
    intro cs cap k r h
    rw [mRE] at h
    split at h
    · next heq =>
        injection h with h2
        subst h2
        exact iha heq
    · exact ihb h
  | opt a iha =>
    intro cs cap k r h
    rw [mRE] at h
    split at h
    · next heq =>
        injection h with h2
        subst h2
        exact iha heq
    · exact ⟨cap, cs, List.suffix_rfl, h⟩
  | star p =>
    intro cs cap k r h
    rw [mRE] at h
    split at h
    · next heq =>
        injection h with h2
        subst h2
        obtain ⟨m, _, _, h3⟩ := tryTake_some heq
        exact ⟨cap, cs.drop m, List.drop_suffix _ _, h3⟩
    · exact ⟨cap, cs, List.suffix_rfl, h⟩
  | plus p =>
    intro cs cap k r h
    rw [mRE] at h
    obtain ⟨m, _, _, h3⟩ := tryTake_some h
    exact ⟨cap, cs.drop m, List.drop_suffix _ _, h3⟩
  | grp p =>
    intro cs cap k r h
    rw [mRE] at h
    obtain ⟨m, _, _, h3⟩ := tryTake_some h
    exact ⟨some (cs.take m), cs.drop m, List.drop_suffix _ _, h3⟩

/-- The remainder returned by a successful anchored match is a suffix of
the input. -/
lemma matchAt_suffix {re : RE} {cs : List Char} {cap : Option (List Char)}
    {rest : List Char} (h : matchAt re cs = some (cap, rest)) : rest <:+ cs := by
  obtain ⟨cap2, rest2, hs, hk⟩ := mRE_some h
  injection hk with hk
  cases hk
  exact hs

/-- Unfolding equation for one step of the findall scan. -/
lemma findallGo_succ (re : RE) (fuel : Nat) (cs : List Char) :
    findallGo re (fuel + 1) cs =
      match matchAt re cs with
      | some (cap, rest) =>
        if rest.length < cs.length then capStr cap :: findallGo re fuel rest
        else
          match cs with
          | [] => [capStr cap]
          | _ :: t => capStr cap :: findallGo re fuel t
      | none =>
        match cs with
        | [] => []
        | _ :: t => findallGo re fuel t := rfl

/-- Every element of the findall scan is the capture of an anchored match
on some suffix of the input. -/
lemma mem_findallGo {re : RE} {g : String} :
    ∀ {fuel : Nat} {cs : List Char}, g ∈ findallGo re fuel cs →
      ∃ cs2, cs2 <:+ cs ∧
        ∃ cap rest, matchAt re cs2 = some (cap, rest) ∧ g = capStr cap := by
  intro fuel
  induction fuel with
  | zero => intro cs h; simp [findallGo] at h
  | succ fuel ih =>
    intro cs h
    rw [findallGo_succ] at h
    split at h
    · next cap rest heq =>
        split at h
        · next hlt =>
            rcases List.mem_cons.mp h with h | h
            · exact ⟨cs, List.suffix_rfl, cap, rest, heq, h⟩
            · obtain ⟨cs2, hs, hrest⟩ := ih h
              exact ⟨cs2, hs.trans (matchAt_suffix heq), hrest⟩
        · next hge =>
            cases cs with
            | nil =>
              simp at h
              exact ⟨[], List.suffix_rfl, cap, rest, heq, h⟩
            | cons c t =>
              rcases List.mem_cons.mp h with h | h
              · exact ⟨c :: t, List.suffix_rfl, cap, rest, heq, h⟩
              · obtain ⟨cs2, hs, hrest⟩ := ih h
                exact ⟨cs2, hs.trans (List.suffix_cons c t), hrest⟩
    · next heq =>
        cases cs with
        | nil => simp at h
        | cons c t =>
          obtain ⟨cs2, hs, hrest⟩ := ih h
          exact ⟨cs2, hs.trans (List.suffix_cons c t), hrest⟩

/-- A match anchored at position 0 that consumes at least one character
contributes its capture to the findall result. -/
lemma mem_re_findall_of_matchAt {re : RE} {s : String} {g rest}
    (h : matchAt re s.toList = some (some g, rest))
    (hl : rest.length < s.toList.length) : g.asString ∈ re_findall re s := by
  unfold re_findall
  simp only [findallGo_succ, h]
  rw [if_pos hl]
  exact List.mem_cons_self _ _

/-- Claim C5, counterexample: the content
`export type export function bar(` contains the construct
`export function bar(` (identifier of length 3, not reserved), and `bar` is
classified into `functions`, but not into `exports` — the export re-scan's
first match (`export type export`, capture `export`, later keyword-filtered)
consumes the only `export` keyword adjacent to `function bar`. -/
theorem c5_counterexample :
    ("export function bar(".toList <:+:
        "export type export function bar(".toList) ∧
      "bar" ∈ (extract_typescript_symbols
        "export type export function bar(").functions ∧
      "bar" ∉ (extract_typescript_symbols
        "export type export function bar(").exports :=
  ⟨by decide, by decide, by decide⟩

/-- Claim C5 (amended): for every input string that begins with the
construct `export function bar(`, the identifier `bar` appears in both the
functions category and the exports category of the classify result. -/
theorem c5_amended (rest : String) :
    "bar" ∈ (extract_typescript_symbols
        ("export function bar(" ++ rest)).functions ∧
      "bar" ∈ (extract_typescript_symbols
        ("export function bar(" ++ rest)).exports := by
  have hlist : ("export function bar(" ++ rest).toList
      = "export function bar(".toList ++ rest.toList := rfl
  have hlen20 : ("export function bar(".toList).length = 20 := rfl
  have hfun : matchAt funcRE ("export function bar(" ++ rest).toList
      = some (some "bar".toList, rest.toList) := rfl
  have hexp : matchAt exportRE ("export function bar(" ++ rest).toList
      = some (some "bar".toList, ("(" ++ rest).toList) := rfl
  have hlen : rest.toList.length < ("export function bar(" ++ rest).toList.length := by
    rw [hlist, List.length_append, hlen20]
    omega
  have hlen2 : ("(" ++ rest).toList.length
      < ("export function bar(" ++ rest).toList.length := by
    have h1 : ("(" ++ rest).toList = "(".toList ++ rest.toList := rfl
    have h2 : ("(".toList).length = 1 := rfl
    rw [h1, hlist, List.length_append, List.length_append, hlen20, h2]
    omega
  have h1 : "bar" ∈ re_findall funcRE ("export function bar(" ++ rest) :=
    mem_re_findall_of_matchAt hfun hlen
  have h2 : "bar" ∈ re_findall exportRE ("export function bar(" ++ rest) :=
    mem_re_findall_of_matchAt hexp hlen2
  exact ⟨mem_postFilter.mpr ⟨h1, by decide, by decide⟩,
    mem_postFilter.mpr ⟨h2, by decide, by decide⟩⟩

/-- Claim C10, counterexample: the content
`export async function foo( export function foo(` contains
`export async function foo(`, yet `foo` IS in the exports category
(via the second, async-free export declaration), contradicting the claim
that classify never places such an identifier in exports. -/
theorem c10_counterexample :
    ("export async function foo(".toList <:+:
        "export async function foo( export function foo(".toList) ∧
      "foo" ∈ (extract_typescript_symbols
        "export async function foo( export function foo(").exports :=
  ⟨by decide, by decide⟩

/-- Claim C10 (amended): for every input beginning with
`export async function foo(`, the function scan accepts the async qualifier
and places `foo` in the functions category; and for the input consisting of
exactly that construct, `foo` is not in the exports category, because the
export re-scan requires a declaration keyword directly after `export` and
the intervening `async` prevents a match (other export declarations
elsewhere in the content can still add the name to exports). -/
theorem c10_amended (rest : String) :
    "foo" ∈ (extract_typescript_symbols
        ("export async function foo(" ++ rest)).functions ∧
      "foo" ∉ (extract_typescript_symbols
        "export async function foo(").exports := by
  have hlist : ("export async function foo(" ++ rest).toList
      = "export async function foo(".toList ++ rest.toList := rfl
  have hlen26 : ("export async function foo(".toList).length = 26 := rfl
  have hfun : matchAt funcRE ("export async function foo(" ++ rest).toList
      = some (some "foo".toList, rest.toList) := rfl
  have hlen : rest.toList.length
      < ("export async function foo(" ++ rest).toList.length := by
    rw [hlist, List.length_append, hlen26]
    omega
  have h1 : "foo" ∈ re_findall funcRE ("export async function foo(" ++ rest) :=
    mem_re_findall_of_matchAt hfun hlen
  exact ⟨mem_postFilter.mpr ⟨h1, by decide, by decide⟩, by decide⟩

/-- Inversion for a literal: the input starts with the literal and the
continuation ran on the remainder. -/
lemma mRE_str_inv {s : List Char} {cs cap k r}
    (h : mRE (.str s) cs cap k = some r) :
    ∃ t, cs = s ++ t ∧ k cap t = some r := by
  rw [mRE] at h
  split at h
  · next hp =>
      obtain ⟨t, ht⟩ := prefixCheck_iff.mp hp
      subst ht
      rw [List.drop_left] at h
      exact ⟨t, rfl, h⟩
  · exact absurd h (by simp)

/-- Inversion for ordered alternation. -/
lemma mRE_alt_inv {a b : RE} {cs cap k r}
    (h : mRE (.alt a b) cs cap k = some r) :
    mRE a cs cap k = some r ∨ mRE b cs cap k = some r := by
  rw [mRE] at h
  split at h
  · next heq =>
      injection h with h2
      subst h2
      exact Or.inl heq
  · exact Or.inr h

/-- Inversion for a single character class. -/
lemma mRE_cls_inv {p : Char → Bool} {cs cap k r}
    (h : mRE (.cls p) cs cap k = some r) :
    ∃ c t, cs = c :: t ∧ p c = true ∧ k cap t = some r := by
  match cs with
  | [] => simp [mRE] at h
  | c :: t =>
    rw [mRE] at h
    split at h
    · next hp => exact ⟨c, t, rfl, hp, h⟩
    · exact absurd h (by simp)

/-- Inversion for a greedy star over a character class. -/
lemma mRE_star_inv {p : Char → Bool} {cs cap k r}
    (h : mRE (.star p) cs cap k = some r) :
    ∃ m, m ≤ (cs.takeWhile p).length ∧ k cap (cs.drop m) = some r := by
  rw [mRE] at h
  split at h
  · next heq =>
      injection h with h2
      subst h2
      obtain ⟨m, _, hm2, h3⟩ := tryTake_some heq
      exact ⟨m, hm2, h3⟩
  · exact ⟨0, Nat.zero_le _, by rw [List.drop_zero]; exact h⟩

/-- Inversion for the capturing group (greedy plus of a character class). -/
lemma mRE_grp_inv {p : Char → Bool} {cs cap k r}
    (h : mRE (.grp p) cs cap k = some r) :
    ∃ m, 1 ≤ m ∧ m ≤ (cs.takeWhile p).length ∧
      k (some (cs.take m)) (cs.drop m) = some r := by
  rw [mRE] at h
  exact tryTake_some h

/-- Characters taken from within the `takeWhile` run satisfy the class. -/
lemma take_all_of_le_takeWhile {p : Char → Bool} {cs : List Char} {m : Nat}
    (h : m ≤ (cs.takeWhile p).length) : ∀ c ∈ cs.take m, p c = true := by
  intro c hc
  obtain ⟨t, ht⟩ := ( List.takeWhile_prefix p : cs.takeWhile p <+: cs)
  have he : cs.take m = (cs.takeWhile p).take m := by
    conv_lhs => rw [← ht]
    rw [List.take_append_of_le_length h]
  rw [he] at hc
  exact List.mem_takeWhile_imp (List.take_subset _ _ hc)

/-- The shape of a capture of the test-behavior pattern: the content
contains (as a contiguous segment) `it(` or `test(`, optional whitespace, a
quote, the captured non-empty quote-free string, and a closing quote. -/
def TestCallShape (content s : String) : Prop :=
  s.toList ≠ [] ∧ (∀ c ∈ s.toList, isQuoteChar c = false) ∧
  ∃ pre sp q1 q2 before after,
    (pre = "it".toList ∨ pre = "test".toList) ∧
    (∀ c ∈ sp, isSpaceChar c = true) ∧
    isQuoteChar q1 = true ∧ isQuoteChar q2 = true ∧
    content.toList =
      before ++ (pre ++ '(' :: (sp ++ q1 :: (s.toList ++ q2 :: after)))

/-- The top-level continuation used by `matchAt`. -/
def kFin : Option (List Char) → List Char → MRes := fun cap rest => some (cap, rest)

/-- Inversion for a leading literal under concatenation. -/
lemma mRE_cat_str_inv {s : List Char} {b : RE} {cs cap k r}
    (h : mRE (.cat (.str s) b) cs cap k = some r) :
    ∃ t, cs = s ++ t ∧ mRE b t cap k = some r := by
  have h2 : mRE (.str s) cs cap (fun cap2 rest2 => mRE b rest2 cap2 k) = some r := h
  exact mRE_str_inv h2

/-- Inversion for a leading alternation under concatenation. -/
lemma mRE_cat_alt_inv {a b c : RE} {cs cap k r}
    (h : mRE (.cat (.alt a b) c) cs cap k = some r) :
    mRE (.cat a c) cs cap k = some r ∨ mRE (.cat b c) cs cap k = some r := by
  have h2 : mRE (.alt a b) cs cap (fun cap2 rest2 => mRE c rest2 cap2 k) = some r := h
  rcases mRE_alt_inv h2 with h3 | h3
  · exact Or.inl h3
  · exact Or.inr h3

/-- Inversion for a leading character class under concatenation. -/
lemma mRE_cat_cls_inv {p : Char → Bool} {b : RE} {cs cap k r}
    (h : mRE (.cat (.cls p) b) cs cap k = some r) :
    ∃ c t, cs = c :: t ∧ p c = true ∧ mRE b t cap k = some r := by
  have h2 : mRE (.cls p) cs cap (fun cap2 rest2 => mRE b rest2 cap2 k) = some r := h
  exact mRE_cls_inv h2

/-- Inversion for a leading greedy star under concatenation. -/
lemma mRE_cat_star_inv {p : Char → Bool} {b : RE} {cs cap k r}
    (h : mRE (.cat (.star p) b) cs cap k = some r) :
    ∃ m, m ≤ (cs.takeWhile p).length ∧ mRE b (cs.drop m) cap k = some r := by
  have h2 : mRE (.star p) cs cap (fun cap2 rest2 => mRE b rest2 cap2 k) = some r := h
  exact mRE_star_inv h2

/-- Inversion for a leading capture group under concatenation. -/
lemma mRE_cat_grp_inv {p : Char → Bool} {b : RE} {cs cap k r}
    (h : mRE (.cat (.grp p) b) cs cap k = some r) :
    ∃ m, 1 ≤ m ∧ m ≤ (cs.takeWhile p).length ∧
      mRE b (cs.drop m) (some (cs.take m)) k = some r := by
  have h2 : mRE (.grp p) cs cap (fun cap2 rest2 => mRE b rest2 cap2 k) = some r := h
  exact mRE_grp_inv h2

/-- Full inversion of a successful anchored match of the test pattern. -/
lemma testRE_shape {cs2 : List Char} {cap : Option (List Char)}
    {rest : List Char} (h : matchAt testRE cs2 = some (cap, rest)) :
    ∃ g pre sp q1 q2,
      cap = some g ∧ g ≠ [] ∧ (∀ c ∈ g, isQuoteChar c = false) ∧
      (pre = "it".toList ∨ pre = "test".toList) ∧
      (∀ c ∈ sp, isSpaceChar c = true) ∧
      isQuoteChar q1 = true ∧ isQuoteChar q2 = true ∧
      cs2 = pre ++ '(' :: (sp ++ q1 :: (g ++ q2 :: rest)) := by
  have halt : mRE (.cat (.alt (rstr "it") (rstr "test"))
      (REcat [rstr "(", .star isSpaceChar, .cls isQuoteChar,
        .grp (fun c => !isQuoteChar c), .cls isQuoteChar]))
      cs2 none kFin = some (cap, rest) := h
  have htail : ∀ pre t1, (pre = "it".toList ∨ pre = "test".toList) →
      cs2 = pre ++ '(' :: t1 →
      mRE (REcat [.star isSpaceChar, .cls isQuoteChar,
        .grp (fun c => !isQuoteChar c), .cls isQuoteChar]) t1 none kFin
        = some (cap, rest) →
      ∃ g pre2 sp q1 q2,
        cap = some g ∧ g ≠ [] ∧ (∀ c ∈ g, isQuoteChar c = false) ∧
        (pre2 = "it".toList ∨ pre2 = "test".toList) ∧
        (∀ c ∈ sp, isSpaceChar c = true) ∧
        isQuoteChar q1 = true ∧ isQuoteChar q2 = true ∧
        cs2 = pre2 ++ '(' :: (sp ++ q1 :: (g ++ q2 :: rest)) := by
    intro pre t1 hpre hcs2 h2
    have h2a : mRE (.cat (.star isSpaceChar) (REcat [.cls isQuoteChar,
        .grp (fun c => !isQuoteChar c), .cls isQuoteChar])) t1 none kFin
        = some (cap, rest) := h2
    obtain ⟨m, hmw, h3⟩ := mRE_cat_star_inv h2a
    have h3a : mRE (.cat (.cls isQuoteChar) (REcat [.grp (fun c => !isQuoteChar c),
        .cls isQuoteChar])) (t1.drop m) none kFin = some (cap, rest) := h3
    obtain ⟨q1, t4, ht4, hq1, h4⟩ := mRE_cat_cls_inv h3a
    have h4a : mRE (.cat (.grp (fun c => !isQuoteChar c))
        (REcat [.cls isQuoteChar])) t4 none kFin = some (cap, rest) := h4
    obtain ⟨n, hn1, hnw, h5⟩ := mRE_cat_grp_inv h4a
    have h5a : mRE (.cat (.cls isQuoteChar) (REcat [])) (t4.drop n)
        (some (t4.take n)) kFin = some (cap, rest) := h5
    obtain ⟨q2, t6, ht6, hq2, h6⟩ := mRE_cat_cls_inv h5a
    have h6a : (some (some (t4.take n), t6) : MRes) = some (cap, rest) := h6
    injection h6a with h6b
    injection h6b with hcap hrest
    have hnle : n ≤ t4.length := le_trans hnw ( List.takeWhile_prefix _).length_le
    have hgne : t4.take n ≠ [] := by
      intro hnil
      have hlen0 : (t4.take n).length = 0 := by rw [hnil]; rfl
      rw [List.length_take] at hlen0
      omega
    refine ⟨t4.take n, pre, t1.take m, q1, q2, hcap.symm, hgne, ?_, hpre, ?_,
      hq1, hq2, ?_⟩
    · intro c hc
      have hcq := take_all_of_le_takeWhile hnw c hc
      simpa using hcq
    · exact take_all_of_le_takeWhile hmw
    · rw [hcs2]
      conv_lhs => rw [← List.take_append_drop m t1, ht4,
        ← List.take_append_drop n t4, ht6, hrest]
  rcases mRE_cat_alt_inv halt with h1 | h1
  · have h1a : mRE (.cat (.str "it".toList) (REcat [rstr "(", .star isSpaceChar,
        .cls isQuoteChar, .grp (fun c => !isQuoteChar c), .cls isQuoteChar]))
        cs2 none kFin = some (cap, rest) := h1
    obtain ⟨t0, ht0, h2⟩ := mRE_cat_str_inv h1a
    have h2a : mRE (.cat (.str "(".toList) (REcat [.star isSpaceChar,
        .cls isQuoteChar, .grp (fun c => !isQuoteChar c), .cls isQuoteChar]))
        t0 none kFin = some (cap, rest) := h2
    obtain ⟨t1, ht1, h3⟩ := mRE_cat_str_inv h2a
    exact htail "it".toList t1 (Or.inl rfl) (by rw [ht0, ht1]; rfl) h3
  · have h1a : mRE (.cat (.str "test".toList) (REcat [rstr "(", .star isSpaceChar,
        .cls isQuoteChar, .grp (fun c => !isQuoteChar c), .cls isQuoteChar]))
        cs2 none kFin = some (cap, rest) := h1
    obtain ⟨t0, ht0, h2⟩ := mRE_cat_str_inv h1a
    have h2a : mRE (.cat (.str "(".toList) (REcat [.star isSpaceChar,
        .cls isQuoteChar, .grp (fun c => !isQuoteChar c), .cls isQuoteChar]))
        t0 none kFin = some (cap, rest) := h2
    obtain ⟨t1, ht1, h3⟩ := mRE_cat_str_inv h2a
    exact htail "test".toList t1 (Or.inr rfl) (by rw [ht0, ht1]; rfl) h3

/-- Claim C6 (amended): every element of `extract_test_behaviors` is the
quoted first argument at an occurrence of `it(` or `test(` in the content.
Because the pattern is unanchored at a word boundary, a call to any
function whose name merely ends in `it` or `test` (e.g. `limit(`) is also
captured, so capture is not limited to calls of exactly the two
test-declaration names. -/
theorem c6_amended (content s : String)
    (h : s ∈ extract_test_behaviors content) : TestCallShape content s := by
  have h2 : s ∈ findallGo testRE (content.toList.length + 1) content.toList := h
  obtain ⟨cs2, hsuf, cap, rest, hm, hg⟩ := mem_findallGo h2
  obtain ⟨g, pre, sp, q1, q2, hcap, hgne, hgq, hpre, hsp, hq1, hq2, hdec⟩ :=
    testRE_shape hm
  subst hcap
  have hs : s = g.asString := hg
  have hsl : s.toList = g := by rw [hs, List.toList_asString]
  obtain ⟨before, hbef⟩ := hsuf
  refine ⟨by rw [hsl]; exact hgne, by rw [hsl]; exact hgq,
    pre, sp, q1, q2, before, rest, hpre, hsp, hq1, hq2, ?_⟩
  rw [← hbef, hdec, hsl]

/-- Decision procedure for "the content has a call to exactly `it` or
`test`": an occurrence of `it(` or `test(` whose start is not immediately
preceded by a word character (otherwise `it`/`test` is a mere suffix of a
longer callee name, as in `limit(`). -/
def hasStandaloneTestCall (content : String) : Bool :=
  (List.range (content.toList.length + 1)).any (fun i =>
    (prefixCheck "it(".toList (content.toList.drop i)
      || prefixCheck "test(".toList (content.toList.drop i))
    && (decide (i = 0) || !isWordChar ((content.toList.take i).getLastD ' ')))

/-- Claim C6, counterexample: the content `limit("x")` contains no call to
the test-declaration functions `it` or `test` (no boundary-correct
occurrence), yet `extract_test_behaviors` captures `x` — from the callee
`limit`, whose name merely ends in `it`. -/
theorem c6_counterexample :
    extract_test_behaviors "limit(\"x\")" = ["x"] ∧
      hasStandaloneTestCall "limit(\"x\")" = false :=
  ⟨by decide, by decide⟩

/-- Witness for C6 (amended) at the concrete input `it("x")`. -/
theorem c6_witness :
    "x" ∈ extract_test_behaviors "it(\"x\")" ∧ TestCallShape "it(\"x\")" "x" :=
  ⟨by decide, c6_amended _ _ (by decide)⟩

/-- The findall scan annotated with the starting position of each match
(`re.finditer` view of the same traversal). -/
def findallPosGo (re : RE) : Nat → Nat → List Char → List (Nat × String)
  | 0, _, _ => []
  | fuel + 1, pos, cs =>
    match matchAt re cs with
    | some (cap, rest) =>
      if rest.length < cs.length then
        (pos, capStr cap) ::
          findallPosGo re fuel (pos + (cs.length - rest.length)) rest
      else
        match cs with
        | [] => [(pos, capStr cap)]
        | _ :: t => (pos, capStr cap) :: findallPosGo re fuel (pos + 1) t
    | none =>
      match cs with
      | [] => []
      | _ :: t => findallPosGo re fuel (pos + 1) t

/-- Unfolding equation for one step of the annotated scan. -/
lemma findallPosGo_succ (re : RE) (fuel pos : Nat) (cs : List Char) :
    findallPosGo re (fuel + 1) pos cs =
      match matchAt re cs with
      | some (cap, rest) =>
        if rest.length < cs.length then
          (pos, capStr cap) ::
            findallPosGo re fuel (pos + (cs.length - rest.length)) rest
        else
          match cs with
          | [] => [(pos, capStr cap)]
          | _ :: t => (pos, capStr cap) :: findallPosGo re fuel (pos + 1) t
      | none =>
        match cs with
        | [] => []
        | _ :: t => findallPosGo re fuel (pos + 1) t := rfl

/-- The test-behavior matches of a content, with positions. -/
def testMatches (content : String) : List (Nat × String) :=
  findallPosGo testRE (content.toList.length + 1) 0 content.toList

/-- Forgetting positions recovers the findall scan. -/
lemma findallPosGo_map_snd {re : RE} :
    ∀ {fuel pos : Nat} {cs : List Char},
      (findallPosGo re fuel pos cs).map Prod.snd = findallGo re fuel cs := by
  intro fuel
  induction fuel with
  | zero => intro pos cs; rfl
  | succ fuel ih =>
    intro pos cs
    rcases hm : matchAt re cs with _ | ⟨cap, rest⟩
    · cases cs with
      | nil => simp only [findallPosGo_succ, findallGo_succ, hm, List.map_nil]
      | cons c t =>
        simp only [findallPosGo_succ, findallGo_succ, hm]
        exact ih
    · by_cases hlt : rest.length < cs.length
      · simp only [findallPosGo_succ, findallGo_succ, hm, if_pos hlt,
          List.map_cons, ih]
      · cases cs with
        | nil => simp only [findallPosGo_succ, findallGo_succ, hm, if_neg hlt]; rfl
        | cons c t =>
          simp only [findallPosGo_succ, findallGo_succ, hm, if_neg hlt,
            List.map_cons, ih]

/-- Every annotated position is at least the scan's starting position. -/
lemma findallPosGo_le {re : RE} :
    ∀ {fuel pos : Nat} {cs : List Char} {q : Nat × String},
      q ∈ findallPosGo re fuel pos cs → pos ≤ q.1 := by
  intro fuel
  induction fuel with
  | zero => intro pos cs q h; simp [findallPosGo] at h
  | succ fuel ih =>
    intro pos cs q h
    rw [findallPosGo_succ] at h
    rcases hm : matchAt re cs with _ | ⟨cap, rest⟩ <;> simp only [hm] at h
    · cases cs with
      | nil => simp at h
      | cons c t => exact le_trans (Nat.le_succ pos) (ih h)
    · by_cases hlt : rest.length < cs.length
      · rw [if_pos hlt] at h
        rcases List.mem_cons.mp h with h | h
        · rw [h]
        · exact le_trans (Nat.le_add_right pos _) (ih h)
      · rw [if_neg hlt] at h
        cases cs with
        | nil =>
          simp at h
          rw [h]
        | cons c t =>
          rcases List.mem_cons.mp h with h | h
          · rw [h]
          · exact le_trans (Nat.le_succ pos) (ih h)

/-- The annotated positions are strictly increasing (file order). -/
lemma findallPosGo_sorted {re : RE} :
    ∀ {fuel pos : Nat} {cs : List Char},
      ((findallPosGo re fuel pos cs).map Prod.fst).Sorted (· < ·) := by
  intro fuel
  induction fuel with
  | zero => intro pos cs; simp [findallPosGo]
  | succ fuel ih =>
    intro pos cs
    rcases hm : matchAt re cs with _ | ⟨cap, rest⟩
    · cases cs with
      | nil => simp [findallPosGo_succ, hm]
      | cons c t =>
        simp only [findallPosGo_succ, hm]
        exact ih
    · by_cases hlt : rest.length < cs.length
      · simp only [findallPosGo_succ, hm, if_pos hlt, List.map_cons,
          List.sorted_cons]
        refine ⟨?_, ih⟩
        intro b hb
        obtain ⟨q, hq, hqb⟩ := List.mem_map.mp hb
        have h1 := findallPosGo_le hq
        have h2 : 1 ≤ cs.length - rest.length := by omega
        omega
      · cases cs with
        | nil => simp [findallPosGo_succ, hm]
        | cons c t =>
          simp only [findallPosGo_succ, hm, if_neg hlt, List.map_cons,
            List.sorted_cons]
          refine ⟨?_, ih⟩
          intro b hb
          obtain ⟨q, hq, hqb⟩ := List.mem_map.mp hb
          have h1 := findallPosGo_le hq
          omega

/-- Every annotated element is the capture of an anchored match at its
recorded position. -/
lemma findallPosGo_spec {re : RE} :
    ∀ {fuel pos : Nat} {cs : List Char} {q : Nat × String},
      q ∈ findallPosGo re fuel pos cs →
      pos ≤ q.1 ∧ ∃ cap rest,
        matchAt re (cs.drop (q.1 - pos)) = some (cap, rest) ∧ q.2 = capStr cap := by
  intro fuel
  induction fuel with
  | zero => intro pos cs q h; simp [findallPosGo] at h
  | succ fuel ih =>
    intro pos cs q h
    rw [findallPosGo_succ] at h
    rcases hm : matchAt re cs with _ | ⟨cap, rest⟩ <;> simp only [hm] at h
    · cases cs with
      | nil => simp at h
      | cons c t =>
        obtain ⟨h1, cap, rest, h2, h3⟩ := ih h
        refine ⟨le_trans (Nat.le_succ pos) h1, cap, rest, ?_, h3⟩
        have key : t.drop (q.1 - (pos + 1)) = (c :: t).drop (q.1 - pos) := by
          have hq : q.1 - pos = (q.1 - pos - 1) + 1 := by omega
          rw [hq]
          show t.drop (q.1 - (pos + 1)) = t.drop (q.1 - pos - 1)
          rfl
        rw [← key]
        exact h2
    · by_cases hlt : rest.length < cs.length
      · rw [if_pos hlt] at h
        rcases List.mem_cons.mp h with h | h
        · subst h
          exact ⟨Nat.le_refl _, cap, rest,
            by rw [Nat.sub_self, List.drop_zero]; exact hm, rfl⟩
        · obtain ⟨p2, hp2⟩ := matchAt_suffix hm
          have hplen : cs.length - rest.length = p2.length := by
            rw [← hp2, List.length_append]
            omega
          have hd : cs.drop (cs.length - rest.length) = rest := by
            rw [hplen, ← hp2]
            exact List.drop_left p2 rest
          obtain ⟨d, hd2, h1, hrest2⟩ :
              ∃ d, cs.drop d = rest ∧ pos + d ≤ q.1 ∧
                q ∈ findallPosGo re fuel (pos + d) rest :=
            ⟨cs.length - rest.length, hd, findallPosGo_le h, h⟩
          obtain ⟨h1b, cap2, rest2, h2, h3⟩ := ih hrest2
          refine ⟨le_trans (Nat.le_add_right pos d) h1b, cap2, rest2, ?_, h3⟩
          have key : rest.drop (q.1 - (pos + d)) = cs.drop (q.1 - pos) := by
            rw [← hd2, List.drop_drop]
            congr 1
            omega
          rw [key] at h2
          exact h2
      · rw [if_neg hlt] at h
        cases cs with
        | nil =>
          simp at h
          subst h
          exact ⟨Nat.le_refl _, cap, rest,
            by rw [Nat.sub_self, List.drop_zero]; exact hm, rfl⟩
        | cons c t =>
          rcases List.mem_cons.mp h with h | h
          · subst h
            exact ⟨Nat.le_refl _, cap, rest,
              by rw [Nat.sub_self, List.drop_zero]; exact hm, rfl⟩
          · obtain ⟨h1, cap2, rest2, h2, h3⟩ := ih h
            refine ⟨le_trans (Nat.le_succ pos) h1, cap2, rest2, ?_, h3⟩
            have key : t.drop (q.1 - (pos + 1)) = (c :: t).drop (q.1 - pos) := by
              have hq : q.1 - pos = (q.1 - pos - 1) + 1 := by omega
              rw [hq]
              show t.drop (q.1 - (pos + 1)) = t.drop (q.1 - pos - 1)
              rfl
            rw [← key]
            exact h2

/-- Claim C7: `extract_test_behaviors` preserves file order and retains
duplicates — the returned sequence is exactly the captures (second
components) of the annotated match list, whose positions are strictly
increasing and each of which is a real anchored match of the test pattern
at its position; and an input with two identical `test("x", ...)` calls
yields the two-element sequence `["x", "x"]`. -/
theorem c7_order_and_duplicates :
    (∀ content : String,
      extract_test_behaviors content = (testMatches content).map Prod.snd ∧
      ((testMatches content).map Prod.fst).Sorted (· < ·) ∧
      ∀ q ∈ testMatches content,
        ∃ cap rest,
          matchAt testRE (content.toList.drop q.1) = some (cap, rest) ∧
          q.2 = capStr cap) ∧
    extract_test_behaviors "test(\"x\", a); test(\"x\", b);" = ["x", "x"] := by
  refine ⟨fun content => ⟨findallPosGo_map_snd.symm, findallPosGo_sorted, ?_⟩,
    by decide⟩
  intro q hq
  obtain ⟨h1, cap, rest, h2, h3⟩ := findallPosGo_spec hq
  rw [Nat.sub_zero] at h2
  exact ⟨cap, rest, h2, h3⟩

/-- The one-file content of the spec's end-to-end scenario. -/
def c2Content : String := "export class Foo \x7b\x7d\ninterface Bar \x7b\x7d"

/-- The one-file source inventory of the spec's end-to-end scenario. -/
def c2Inv : SrcInventory :=
  [("src/foo.ts", { symbols := extract_typescript_symbols c2Content,
                    line_count := 2, size := c2Content.length })]

/-- Claim C2: the rendered report's total symbol count is the sum, over all
source-file records, of the sizes of the functions, classes and interfaces
categories only; and the end-to-end scenario: a file containing
`export class Foo {}` and `interface Bar {}` renders the listing summary
`1 classes, 1 interfaces` and the total-symbol line `2`. -/
theorem c2_total_symbols :
    (∀ (s : SrcInventory) (b : BenchInventory) (t : TestInventory),
      ("- **Total symbols in src/**: " ++ toString
          ((s.map (fun e => e.2.symbols.functions.length +
            e.2.symbols.classes.length + e.2.symbols.interfaces.length)).sum))
        ∈ buildLines s b t) ∧
    symbolSummary (extract_typescript_symbols c2Content)
      = "1 classes, 1 interfaces" ∧
    totalSrcSymbols c2Inv = 2 ∧
    ("- `src/foo.ts` - 1 classes, 1 interfaces") ∈ buildLines c2Inv [] [] ∧
    ("- **Total symbols in src/**: 2") ∈ buildLines c2Inv [] [] := by
  refine ⟨fun s b t => ?_, by decide, by decide, by decide, by decide⟩
  simp [buildLines, totalSrcSymbols]

/-- Following the spec's words: the list of count phrases for the
non-empty categories, in the fixed order classes, interfaces, functions,
types, constants. -/
def specCountParts (sym : SymbolSet) : List String :=
  ([(sym.classes, " classes"), (sym.interfaces, " interfaces"),
    (sym.functions, " functions"), (sym.types, " types"),
    (sym.constants, " constants")]).filterMap
    (fun e => if e.1.isEmpty then none
              else some (toString e.1.length ++ e.2))

/-- The spec-side phrase list coincides with the renderer's. -/
lemma specCountParts_eq (sym : SymbolSet) :
    specCountParts sym = symbolCounts sym := by
  unfold specCountParts symbolCounts
  by_cases h1 : sym.classes.isEmpty <;> by_cases h2 : sym.interfaces.isEmpty <;>
    by_cases h3 : sym.functions.isEmpty <;> by_cases h4 : sym.types.isEmpty <;>
    by_cases h5 : sym.constants.isEmpty <;>
    simp_all [List.filterMap_cons, List.isEmpty_iff]

/-- Claim C9: each file's line in the source listing shows only the
non-empty category counts in the fixed order classes, interfaces,
functions, types, constants, joined by commas, and a file whose classify
result has all categories empty renders the fixed `No symbols` placeholder;
every line of the source section is of this shape for some inventory
path. -/
theorem c9_listing_line (sym : SymbolSet) (inv : SrcInventory) :
    (symbolSummary sym =
      (if specCountParts sym = [] then "No symbols"
       else String.intercalate ", " (specCountParts sym))) ∧
    ((specCountParts sym = []) ↔ (sym.classes = [] ∧ sym.interfaces = [] ∧
      sym.functions = [] ∧ sym.types = [] ∧ sym.constants = [])) ∧
    ∀ line ∈ srcSection inv, ∃ p, p ∈ inv.map Prod.fst ∧
      line = "- `" ++ p ++ "` - " ++
        symbolSummary ((List.lookup p inv).getD default).symbols := by
  refine ⟨?_, ?_, ?_⟩
  · rw [specCountParts_eq]
    unfold symbolSummary
    by_cases h : symbolCounts sym = []
    · rw [if_pos h, if_pos (by rw [h]; rfl)]
    · rw [if_neg h, if_neg (by simpa [List.isEmpty_iff] using h)]
  · rw [specCountParts_eq]
    unfold symbolCounts
    by_cases h1 : sym.classes.isEmpty <;> by_cases h2 : sym.interfaces.isEmpty <;>
      by_cases h3 : sym.functions.isEmpty <;> by_cases h4 : sym.types.isEmpty <;>
      by_cases h5 : sym.constants.isEmpty <;>
      simp_all [List.isEmpty_iff]
  · intro line hline
    obtain ⟨p, hp, hpe⟩ := List.mem_map.mp hline
    exact ⟨p, (List.perm_insertionSort _ _).mem_iff.mp hp, hpe.symm⟩

/-- Dict lookup is insertion-order independent when keys are distinct. -/
lemma lookup_eq_of_perm {β : Type} {l l2 : List (String × β)} (h : l.Perm l2)
    (hn : (l.map Prod.fst).Nodup) (k : String) :
    List.lookup k l = List.lookup k l2 := by
  induction h with
  | nil => rfl
  | cons x h2 ih =>
    obtain ⟨p, v⟩ := x
    rw [List.map_cons, List.nodup_cons] at hn
    rw [List.lookup_cons, List.lookup_cons]
    cases hkp : k == p
    · exact ih hn.2
    · rfl
  | swap x y l3 =>
    obtain ⟨p1, v1⟩ := x
    obtain ⟨p2, v2⟩ := y
    rw [List.map_cons, List.map_cons, List.nodup_cons] at hn
    have hne : p2 ≠ p1 := by
      intro he
      exact hn.1 (by rw [he]; exact List.mem_cons_self _ _)
    rw [List.lookup_cons, List.lookup_cons, List.lookup_cons, List.lookup_cons]
    cases h2 : k == p2 <;> cases h1 : k == p1 <;>
      first
        | rfl
        | exact absurd ((eq_of_beq h2).symm.trans (eq_of_beq h1)) hne
  | trans h1 h2 ih1 ih2 =>
    have hn2 := ((h1.map Prod.fst).nodup_iff).mp hn
    rw [ih1 hn, ih2 hn2]

/-- Sorting is a function of the multiset of keys. -/
lemma sortStrings_eq_of_perm {l l2 : List String} (h : l.Perm l2) :
    sortStrings l = sortStrings l2 :=
  List.eq_of_perm_of_sorted
    ((List.perm_insertionSort _ l).trans (h.trans (List.perm_insertionSort _ l2).symm))
    (List.sorted_insertionSort _ l) (List.sorted_insertionSort _ l2)

/-- The source listing is insertion-order independent. -/
lemma srcSection_eq_of_perm {s s2 : SrcInventory} (h : s.Perm s2)
    (hn : (s.map Prod.fst).Nodup) : srcSection s = srcSection s2 := by
  unfold srcSection
  rw [sortStrings_eq_of_perm (h.map Prod.fst)]
  apply List.map_congr_left
  intro p _
  unfold srcLine
  rw [lookup_eq_of_perm h hn p]

/-- The benchmark listing is insertion-order independent. -/
lemma benchSection_eq_of_perm {b b2 : BenchInventory} (h : b.Perm b2)
    (hn : (b.map Prod.fst).Nodup) : benchSection b = benchSection b2 := by
  unfold benchSection
  rw [sortStrings_eq_of_perm (h.map Prod.fst)]
  apply congrArg
  apply List.map_congr_left
  intro p _
  unfold benchEntry
  rw [lookup_eq_of_perm h hn p]

/-- The test listing is insertion-order independent. -/
lemma testSection_eq_of_perm {t t2 : TestInventory} (h : t.Perm t2)
    (hn : (t.map Prod.fst).Nodup) : testSection t = testSection t2 := by
  unfold testSection
  rw [sortStrings_eq_of_perm (h.map Prod.fst)]
  apply congrArg
  apply List.map_congr_left
  intro p _
  unfold testEntry
  rw [lookup_eq_of_perm h hn p]

/-- Claim C3: the renderer is deterministic — its output depends only on
the mapping contents of the three inventories, not on their insertion
order (so two runs over a fixed set of inventories give byte-identical
output), file entries are emitted sorted lexicographically by path, and
every label/behavior sub-listing uses the same lexicographic sort. -/
theorem c3_render_deterministic (s s2 : SrcInventory) (b b2 : BenchInventory)
    (t t2 : TestInventory) (hs : s.Perm s2) (hb : b.Perm b2) (ht : t.Perm t2)
    (hsn : (s.map Prod.fst).Nodup) (hbn : (b.map Prod.fst).Nodup)
    (htn : (t.map Prod.fst).Nodup) :
    generate_markdown_inventory s b t = generate_markdown_inventory s2 b2 t2 ∧
    ∀ l : List String, (sortStrings l).Sorted (· ≤ ·) ∧ (sortStrings l).Perm l := by
  constructor
  · unfold generate_markdown_inventory
    apply congrArg
    unfold buildLines
    rw [srcSection_eq_of_perm hs hsn, benchSection_eq_of_perm hb hbn,
      testSection_eq_of_perm ht htn]
    rw [show totalSrcSymbols s = totalSrcSymbols s2 from (hs.map _).sum_eq,
      show totalBenchmarks b = totalBenchmarks b2 from (hb.map _).sum_eq,
      show totalBehaviors t = totalBehaviors t2 from (ht.map _).sum_eq,
      hs.length_eq, hb.length_eq, ht.length_eq]
  · intro l
    exact ⟨List.sorted_insertionSort _ l, List.perm_insertionSort _ l⟩

/-- Witness for C3: two insertion orders of the same two-file source
inventory render identically. -/
theorem c3_witness :
    generate_markdown_inventory
        [("src/b.ts", ⟨⟨[], [], [], [], [], []⟩, 1, 2⟩),
         ("src/a.ts", ⟨⟨["ff"], [], [], [], [], []⟩, 3, 4⟩)]
        [("benches/x.ts", ⟨["m2", "m1"], 5, 6⟩)]
        [("tests/y.ts", ⟨["t2", "t1"], 7, 8⟩)]
      = generate_markdown_inventory
        [("src/a.ts", ⟨⟨["ff"], [], [], [], [], []⟩, 3, 4⟩),
         ("src/b.ts", ⟨⟨[], [], [], [], [], []⟩, 1, 2⟩)]
        [("benches/x.ts", ⟨["m2", "m1"], 5, 6⟩)]
        [("tests/y.ts", ⟨["t2", "t1"], 7, 8⟩)] :=
  (c3_render_deterministic _ _ _ _ _ _ (by decide) (by decide) (by decide)
    (by decide) (by decide) (by decide)).1
